import Mathlib

/-!
Verification of the `DynamicPriorityQueue` scheduler (src/BLOG.md) and of the
`fetchWithTimeout` / `fetchWithTimeoutClean` pair
(src/callbacks/easy/fetchWithTimeout.js).

The scheduler is embedded as an explicit state machine.  JavaScript is
single-threaded, and `process()` is an `async` method whose `while` loop
body contains `await task()`: one invocation of `process()` therefore runs
synchronously exactly up to the point where it starts (at most) one task,
and then suspends until that task's promise settles.  Consequently:

* `add` pushes a record, stably sorts the pending array by priority
  descending (Array.prototype.sort is stable), and spawns one `process()`
  invocation, which starts at most one task before suspending;
* `setLimit` stores the new limit and likewise spawns one `process()`
  invocation (starting at most one task);
* when a running task settles, its suspended `process()` invocation resumes:
  it settles the task's promise, decrements `running`, calls `process()`
  (one more potential task start) and then re-checks its own `while` guard
  (a second potential task start).

Each started-but-unfinished task corresponds to exactly one suspended
`process()` invocation, so the state needs no separate invocation table:
`running` is the list of in-flight records.  Tasks are opaque asynchronous
units (the spec's collaborator contract); their outcomes are delivered by
`finish` events chosen by the environment.
-/

namespace DynamicPriorityQueue

/-- Decidable equality for task outcomes (success value or failure message). -/
instance : DecidableEq (Except String Nat)
  | Except.ok a, Except.ok b =>
    if h : a = b then isTrue (congrArg Except.ok h)
    else isFalse (fun hc => h (Except.ok.inj hc))
  | Except.ok _, Except.error _ => isFalse (fun hc => Except.noConfusion hc)
  | Except.error _, Except.ok _ => isFalse (fun hc => Except.noConfusion hc)
  | Except.error a, Except.error b =>
    if h : a = b then isTrue (congrArg Except.error h)
    else isFalse (fun hc => h (Except.error.inj hc))

/-- A queued task record: the `{ task, priority, resolve, reject }` object of
`add`, abstracted to its priority and an arrival sequence number (the task
payload is opaque and its outcome is supplied by the corresponding `finish`
event; `resolve`/`reject` are represented by the `settled` log). -/
structure TaskRecord where
  priority : Int
  seq : Nat
deriving DecidableEq, Repr

/-- Scheduler state: the fields of the `DynamicPriorityQueue` object, plus a
fresh-sequence counter and the log of settlements (`resolve`/`reject` calls,
keyed by the record's sequence number). -/
structure State where
  concurrency : Int
  running : List TaskRecord
  queue : List TaskRecord
  settled : List (Nat × Except String Nat)
  nextSeq : Nat
deriving DecidableEq, Repr

/-- The constructor `new DynamicPriorityQueue(concurrency)`: stores the argument unvalidated,
`running = 0`, `queue = []`. -/
def init (concurrency : Int) : State :=
  { concurrency := concurrency, running := [], queue := [], settled := [], nextSeq := 0 }

/-- Stable insertion of a later-arriving record into a descending-by-priority
list: the new record goes after every earlier record of greater or equal
priority.  This is the effect Array.prototype.sort (a stable sort since
ES2019) with comparator `(a, b) => b.priority - a.priority` has on a list
that is sorted except for one newly pushed element. -/
def sortInsert (a : TaskRecord) : List TaskRecord → List TaskRecord
  | [] => [a]
  | b :: l => if a.priority ≤ b.priority then b :: sortInsert a l else a :: b :: l

/-- The call `this.queue.sort((a, b) => b.priority - a.priority)`: stable sort,
descending by priority, modelled as left-to-right stable insertion. -/
def sortByPriority (l : List TaskRecord) : List TaskRecord :=
  l.foldl (fun acc x => sortInsert x acc) []

/-- The synchronous prefix of one `process()` invocation: if
`running < concurrency` and the queue is non-empty, shift the head record,
increment `running` (start its task) and suspend at `await task()`;
otherwise do nothing.  The `while` guard is re-evaluated only at later
events, each of which is modelled by its own `processStep`. -/
def processStep (s : State) : State :=
  if (s.running.length : Int) < s.concurrency then
    match s.queue with
    | [] => s
    | r :: rest => { s with queue := rest, running := s.running ++ [r] }
  else s

/-- The method `add(task, priority)`: push a fresh record, stably sort the queue by
priority descending, then run `this.process()` up to its first suspension. -/
def add (s : State) (priority : Int) : State :=
  processStep { s with
    queue := sortByPriority (s.queue ++ [{ priority := priority, seq := s.nextSeq }]),
    nextSeq := s.nextSeq + 1 }

/-- The method `setLimit(newConcurrency)`: store the argument unvalidated, then run
`this.process()` up to its first suspension. -/
def setLimit (s : State) (newConcurrency : Int) : State :=
  processStep { s with concurrency := newConcurrency }

/-- Remove the (unique) in-flight record with the given sequence number,
returning it together with the remaining list. -/
def pullSeq (q : Nat) : List TaskRecord → Option (TaskRecord × List TaskRecord)
  | [] => none
  | r :: rest =>
    if r.seq = q then some (r, rest)
    else (pullSeq q rest).map (fun p => (p.1, r :: p.2))

/-- Completion of the running task with sequence number `q`, outcome `o`:
the suspended `process()` invocation awaiting it resumes, calls
`resolve(result)` or `reject(error)` (logged in `settled`), decrements
`running` in the `finally`, calls `this.process()` (one `processStep`), and
then re-checks its own `while` guard (a second `processStep`).  A `finish`
event for a sequence number that is not in flight cannot occur and is a
no-op. -/
def finish (s : State) (q : Nat) (o : Except String Nat) : State :=
  match pullSeq q s.running with
  | none => s
  | some (_, rest) =>
    processStep (processStep { s with running := rest, settled := s.settled ++ [(q, o)] })

/-- External events of the scheduler: the public operations and task
completions. -/
inductive Event where
  | add (priority : Int)
  | setLimit (newConcurrency : Int)
  | finish (seq : Nat) (o : Except String Nat)
deriving DecidableEq, Repr

/-- One event of an interleaving. -/
def step (s : State) : Event → State
  | .add p => add s p
  | .setLimit n => setLimit s n
  | .finish q o => finish s q o

/-- Run an interleaving of events from a state. -/
def run (s : State) (es : List Event) : State :=
  es.foldl step s

/-- Dispatch order on records: `a` is dispatched strictly before `b`
(greater priority, or equal priority and earlier arrival). -/
def qBefore (a b : TaskRecord) : Prop :=
  b.priority < a.priority ∨ (a.priority = b.priority ∧ a.seq < b.seq)

instance (a b : TaskRecord) : Decidable (qBefore a b) :=
  inferInstanceAs (Decidable (_ ∨ _))

/-- Every sequence number present anywhere in the state: pending, in flight,
or settled. -/
def allSeqs (s : State) : List Nat :=
  s.queue.map TaskRecord.seq ++ s.running.map TaskRecord.seq ++ s.settled.map Prod.fst

/-- Bookkeeping invariant: sequence numbers are globally distinct, and the
numbers present are exactly those below the fresh counter (every submitted
task is in exactly one place; a popped record is never reinserted). -/
def occInv (s : State) : Prop :=
  (allSeqs s).Nodup ∧ (∀ q ∈ allSeqs s, q < s.nextSeq) ∧ (∀ q < s.nextSeq, q ∈ allSeqs s)

/-- Ordering invariant: the pending queue is strictly ordered by dispatch
order (priority descending, arrival ascending among ties). -/
def sortInv (s : State) : Prop :=
  s.queue.Pairwise qBefore

/-- Well-formedness of a scheduler state. -/
def WF (s : State) : Prop :=
  occInv s ∧ sortInv s

theorem sortInsert_perm (a : TaskRecord) (l : List TaskRecord) :
    (sortInsert a l).Perm (a :: l) := by
  induction l with
  | nil => exact List.Perm.refl _
  | cons b l ih =>
    unfold sortInsert
    by_cases h : a.priority ≤ b.priority
    · simpa [h] using ((ih.cons b).trans (List.Perm.swap a b l))
    · simp [h]

theorem sortByPriority_append_singleton (l : List TaskRecord) (a : TaskRecord) :
    sortByPriority (l ++ [a]) = sortInsert a (sortByPriority l) := by
  simp [sortByPriority, List.foldl_append]

theorem sortByPriority_perm (l : List TaskRecord) :
    (sortByPriority l).Perm l := by
  induction l using List.reverseRecOn with
  | nil => exact List.Perm.refl _
  | append_singleton l a ih =>
    rw [sortByPriority_append_singleton]
    exact ((sortInsert_perm a (sortByPriority l)).trans (ih.cons a)).trans
      (List.perm_append_singleton a l).symm

theorem sortInsert_eq_append (a : TaskRecord) (l : List TaskRecord)
    (h : ∀ b ∈ l, qBefore b a) : sortInsert a l = l ++ [a] := by
  induction l with
  | nil => rfl
  | cons b l ih =>
    have hba : qBefore b a := h b (List.mem_cons_self b l)
    have hle : a.priority ≤ b.priority := by
      rcases hba with h1 | ⟨h1, _⟩
      · exact le_of_lt h1
      · exact le_of_eq h1.symm
    simp only [sortInsert, if_pos hle, List.cons_append]
    rw [ih (fun b hb => h b (List.mem_cons_of_mem _ hb))]

theorem sortByPriority_eq_self (l : List TaskRecord) (hl : l.Pairwise qBefore) :
    sortByPriority l = l := by
  induction l using List.reverseRecOn with
  | nil => rfl
  | append_singleton l a ih =>
    rw [sortByPriority_append_singleton]
    rcases List.pairwise_append.mp hl with ⟨h1, _, h3⟩
    rw [ih h1]
    exact sortInsert_eq_append a l
      (fun b hb => h3 b hb a (List.mem_singleton_self a))

theorem sortInsert_pairwise (a : TaskRecord) (l : List TaskRecord)
    (hl : l.Pairwise qBefore) (hseq : ∀ b ∈ l, b.seq < a.seq) :
    (sortInsert a l).Pairwise qBefore := by
  induction l with
  | nil => simp [sortInsert]
  | cons b l ih =>
    rcases List.pairwise_cons.mp hl with ⟨hb, hl'⟩
    unfold sortInsert
    by_cases h : a.priority ≤ b.priority
    · rw [if_pos h]
      refine List.pairwise_cons.mpr ⟨?_, ih hl' (fun x hx => hseq x (List.mem_cons_of_mem _ hx))⟩
      intro x hx
      rcases List.mem_cons.mp ((sortInsert_perm a l).mem_iff.mp hx) with hx | hx
      · subst hx
        rcases lt_or_eq_of_le h with h1 | h1
        · exact Or.inl h1
        · exact Or.inr ⟨h1.symm, hseq b (List.mem_cons_self b l)⟩
      · exact hb x hx
    · rw [if_neg h]
      have hba : b.priority < a.priority := not_le.mp h
      refine List.pairwise_cons.mpr ⟨?_, hl⟩
      intro x hx
      rcases List.mem_cons.mp hx with hx | hx
      · exact Or.inl (hx ▸ hba)
      · rcases hb x hx with h1 | ⟨h1, _⟩
        · exact Or.inl (h1.trans hba)
        · exact Or.inl (h1 ▸ hba)

theorem processStep_cases (s : State) :
    processStep s = s ∨
      ∃ r rest, s.queue = r :: rest ∧ (s.running.length : Int) < s.concurrency ∧
        processStep s = { s with queue := rest, running := s.running ++ [r] } := by
  unfold processStep
  by_cases h : (s.running.length : Int) < s.concurrency
  · rcases hq : s.queue with _ | ⟨r, rest⟩
    · left; simp [h]
    · right; exact ⟨r, rest, rfl, h, by simp [h]⟩
  · left; simp [h]

theorem processStep_of_start {s : State} {r : TaskRecord} {rest : List TaskRecord}
    (h : (s.running.length : Int) < s.concurrency) (hq : s.queue = r :: rest) :
    processStep s = { s with queue := rest, running := s.running ++ [r] } := by
  unfold processStep
  simp [h, hq]

theorem processStep_of_full {s : State} (h : ¬ (s.running.length : Int) < s.concurrency) :
    processStep s = s := by
  unfold processStep
  simp [h]

theorem processStep_running_of_full {s : State}
    (h : ¬ (s.running.length : Int) < s.concurrency) :
    (processStep s).running = s.running := by
  rw [processStep_of_full h]

theorem processStep_concurrency (s : State) :
    (processStep s).concurrency = s.concurrency := by
  rcases processStep_cases s with h | ⟨r, rest, _, _, h⟩ <;> rw [h]

theorem processStep_settled (s : State) :
    (processStep s).settled = s.settled := by
  rcases processStep_cases s with h | ⟨r, rest, _, _, h⟩ <;> rw [h]

theorem processStep_nextSeq (s : State) :
    (processStep s).nextSeq = s.nextSeq := by
  rcases processStep_cases s with h | ⟨r, rest, _, _, h⟩ <;> rw [h]

theorem processStep_mem_running {s : State} {x : TaskRecord} (hx : x ∈ s.running) :
    x ∈ (processStep s).running := by
  rcases processStep_cases s with h | ⟨r, rest, _, _, h⟩ <;> rw [h]
  · exact hx
  · exact List.mem_append_left _ hx

theorem processStep_allSeqs (s : State) :
    (allSeqs (processStep s)).Perm (allSeqs s) := by
  rcases processStep_cases s with h | ⟨r, rest, hq, _, h⟩
  · rw [h]
  · rw [h]
    simp only [allSeqs, hq, List.map_append, List.map_cons, List.map_nil]
    refine List.Perm.append_right _ ?_
    exact (List.Perm.append_left _ (List.perm_append_singleton r.seq _)).trans List.perm_middle

theorem pullSeq_eq_some {q : Nat} {l : List TaskRecord} {r : TaskRecord}
    {rest : List TaskRecord} (h : pullSeq q l = some (r, rest)) :
    r.seq = q ∧ l.Perm (r :: rest) := by
  induction l generalizing rest with
  | nil => simp [pullSeq] at h
  | cons b l ih =>
    unfold pullSeq at h
    by_cases hb : b.seq = q
    · rw [if_pos hb] at h
      rcases Option.some.inj h with h
      rcases Prod.mk.injEq .. ▸ h with ⟨h1, h2⟩
      subst h1; subst h2
      exact ⟨hb, List.Perm.refl _⟩
    · rw [if_neg hb] at h
      rcases Option.map_eq_some'.mp h with ⟨⟨r', rest'⟩, hp, heq⟩
      rcases Prod.mk.injEq .. ▸ heq with ⟨h1, h2⟩
      subst h1; subst h2
      obtain ⟨hseq, hperm⟩ := ih hp
      exact ⟨hseq, (hperm.cons b).trans (List.Perm.swap r' b rest')⟩

theorem finish_running_no_start {s : State} {q : Nat} {o : Except String Nat}
    (hc : s.concurrency ≤ (s.running.length : Int) - 1 ∨ s.concurrency ≤ 0) :
    ∀ x ∈ (finish s q o).running, x ∈ s.running := by
  intro x hx
  unfold finish at hx
  rcases hp : pullSeq q s.running with _ | ⟨r, rest⟩
  · rw [hp] at hx
    exact hx
  · obtain ⟨hseq, hperm⟩ := pullSeq_eq_some hp
    have hlen := hperm.length_eq
    simp only [List.length_cons] at hlen
    have hrest : ¬ ((rest.length : Int) < s.concurrency) := by
      rcases hc with hc | hc <;> omega
    rw [hp] at hx
    have h2 : (processStep (processStep
        { s with running := rest, settled := s.settled ++ [(q, o)] })).running = rest := by
      rw [@processStep_of_full { s with running := rest, settled := s.settled ++ [(q, o)] } hrest]
      rw [@processStep_of_full { s with running := rest, settled := s.settled ++ [(q, o)] } hrest]
    rw [h2] at hx
    exact hperm.mem_iff.mpr (List.mem_cons_of_mem r hx)

theorem occInv_of_perm {s t : State} (hp : (allSeqs t).Perm (allSeqs s))
    (hn : t.nextSeq = s.nextSeq) (h : occInv s) : occInv t := by
  obtain ⟨h1, h2, h3⟩ := h
  refine ⟨hp.nodup_iff.mpr h1, ?_, ?_⟩
  · intro q hq
    rw [hn]
    exact h2 q (hp.mem_iff.mp hq)
  · intro q hq
    rw [hn] at hq
    exact hp.mem_iff.mpr (h3 q hq)

theorem occInv_processStep {s : State} (h : occInv s) : occInv (processStep s) :=
  occInv_of_perm (processStep_allSeqs s) (processStep_nextSeq s) h

theorem sortInv_processStep {s : State} (h : sortInv s) : sortInv (processStep s) := by
  rcases processStep_cases s with he | ⟨r, rest, hq, _, he⟩
  · rw [he]; exact h
  · rw [he]
    unfold sortInv at h ⊢
    simp only
    rw [hq] at h
    exact (List.pairwise_cons.mp h).2

theorem wf_processStep {s : State} (h : WF s) : WF (processStep s) :=
  ⟨occInv_processStep h.1, sortInv_processStep h.2⟩

theorem wf_add {s : State} (h : WF s) (p : Int) : WF (add s p) := by
  obtain ⟨⟨h1, h2, h3⟩, hs⟩ := h
  have hQ : ((sortByPriority (s.queue ++ [{ priority := p, seq := s.nextSeq }])).map
      TaskRecord.seq).Perm (s.queue.map TaskRecord.seq ++ [s.nextSeq]) := by
    have := (sortByPriority_perm
      (s.queue ++ [{ priority := p, seq := s.nextSeq }])).map TaskRecord.seq
    rw [List.map_append, List.map_singleton] at this
    exact this
  have hperm : (allSeqs { s with
      queue := sortByPriority (s.queue ++ [{ priority := p, seq := s.nextSeq }]),
      nextSeq := s.nextSeq + 1 }).Perm (s.nextSeq :: allSeqs s) := by
    simp only [allSeqs]
    refine (List.Perm.append_right _ (List.Perm.append_right _ hQ)).trans ?_
    exact List.Perm.append_right _ (List.Perm.append_right _
      (List.perm_append_singleton s.nextSeq _))
  refine wf_processStep ⟨⟨?_, ?_, ?_⟩, ?_⟩
  · refine hperm.nodup_iff.mpr (List.nodup_cons.mpr ⟨?_, h1⟩)
    intro hmem
    exact absurd (h2 _ hmem) (lt_irrefl _)
  · intro q hq
    rcases List.mem_cons.mp (hperm.mem_iff.mp hq) with hq | hq
    · simp only [hq]
      omega
    · have := h2 q hq
      simp only
      omega
  · intro q hq
    refine hperm.mem_iff.mpr ?_
    simp only at hq
    by_cases hqn : q = s.nextSeq
    · exact hqn ▸ List.mem_cons_self _ _
    · have : q < s.nextSeq := by omega
      exact List.mem_cons_of_mem _ (h3 q this)
  · unfold sortInv
    simp only
    rw [sortByPriority_append_singleton, sortByPriority_eq_self s.queue hs]
    refine sortInsert_pairwise _ s.queue hs ?_
    intro b hb
    exact h2 b.seq (List.mem_append_left _ (List.mem_append_left _
      (List.mem_map_of_mem TaskRecord.seq hb)))

theorem wf_setLimit {s : State} (h : WF s) (n : Int) : WF (setLimit s n) :=
  wf_processStep ⟨h.1, h.2⟩

theorem wf_finish {s : State} (h : WF s) (q : Nat) (o : Except String Nat) :
    WF (finish s q o) := by
  unfold finish
  rcases hp : pullSeq q s.running with _ | ⟨r, rest⟩
  · exact h
  · obtain ⟨hseq, hperm⟩ := pullSeq_eq_some hp
    have hrun : (s.running.map TaskRecord.seq).Perm (q :: rest.map TaskRecord.seq) := by
      have := hperm.map TaskRecord.seq
      rw [List.map_cons, hseq] at this
      exact this
    have hall : (allSeqs { s with running := rest, settled := s.settled ++ [(q, o)] }).Perm
        (allSeqs s) := by
      simp only [allSeqs, List.map_append, List.map_cons, List.map_nil, List.append_assoc]
      refine List.Perm.append_left _ ?_
      refine ((List.Perm.append_left _ (List.perm_append_singleton q _)).trans
        List.perm_middle).trans ?_
      exact (List.Perm.append_right _ hrun).symm
    exact wf_processStep (wf_processStep ⟨occInv_of_perm hall rfl h.1, h.2⟩)

theorem wf_step {s : State} (h : WF s) (e : Event) : WF (step s e) := by
  cases e with
  | add p => exact wf_add h p
  | setLimit n => exact wf_setLimit h n
  | finish q o => exact wf_finish h q o

theorem wf_init (c : Int) : WF (init c) := by
  refine ⟨⟨List.nodup_nil, ?_, ?_⟩, List.Pairwise.nil⟩ <;>
    simp [allSeqs, init]

theorem wf_run {s : State} (h : WF s) (es : List Event) : WF (run s es) := by
  induction es generalizing s with
  | nil => exact h
  | cons e es ih => exact ih (wf_step h e)

theorem processStep_within {s : State} (h : (s.running.length : Int) ≤ s.concurrency) :
    ((processStep s).running.length : Int) ≤ (processStep s).concurrency := by
  rcases processStep_cases s with he | ⟨r, rest, hq, hlt, he⟩
  · rw [he]; exact h
  · rw [he]
    simp only [List.length_append, List.length_cons, List.length_nil]
    push_cast
    omega

/-- The trace condition that rules out only the transient exception the spec
allows: every `setLimit` in the interleaving keeps the limit at or above the
number of tasks running at that instant. -/
def limitSafe : State → List Event → Bool
  | _, [] => true
  | s, e :: es =>
    (match e with
     | Event.setLimit n => decide ((s.running.length : Int) ≤ n)
     | _ => true) && limitSafe (step s e) es

/-- At every instant of the interleaving (before each event and at the end),
the number of started-but-unfinished tasks is at most the limit in effect. -/
def alwaysWithinLimit : State → List Event → Bool
  | s, [] => decide ((s.running.length : Int) ≤ s.concurrency)
  | s, e :: es =>
    decide ((s.running.length : Int) ≤ s.concurrency) && alwaysWithinLimit (step s e) es

theorem within_step {s : State} {e : Event} (h : (s.running.length : Int) ≤ s.concurrency)
    (hsafe : match e with
      | Event.setLimit n => (s.running.length : Int) ≤ n
      | _ => True) :
    ((step s e).running.length : Int) ≤ (step s e).concurrency := by
  cases e with
  | add p =>
    exact processStep_within (by simpa using h)
  | setLimit n =>
    exact processStep_within (by simpa using hsafe)
  | finish q o =>
    show ((finish s q o).running.length : Int) ≤ (finish s q o).concurrency
    unfold finish
    rcases hp : pullSeq q s.running with _ | ⟨r, rest⟩
    · exact h
    · have hlen := (pullSeq_eq_some hp).2.length_eq
      refine processStep_within (processStep_within ?_)
      simp only [List.length_cons] at hlen ⊢
      omega

end DynamicPriorityQueue

/-!
Embedding of `fetchWithTimeout` and `fetchWithTimeoutClean`
(src/callbacks/easy/fetchWithTimeout.js).  Both functions call `fetch(url)`
and arm an `ms`-millisecond timer immediately; the returned promise is then
settled by asynchronous events.  JavaScript delivers these events in some
definite order on the single thread, so each function is embedded as a fold
of a settlement state over the shared event schedule: the fetch settling
successfully, the fetch failing, or the timer firing.  A promise keeps the
first settlement and ignores the rest; `clearTimeout` is modelled by the
`timerActive` flag (a timer whose handle was cleared, or that has already
fired, never fires).
-/

namespace FetchWithTimeout

/-- Asynchronous events that can reach the two racing promises: the fetch
resolving with a response, the fetch rejecting with an error, or the
`setTimeout` timer firing. -/
inductive RaceEvent (α β : Type) where
  | fetchOk (a : α)
  | fetchErr (e : β)
  | timeout

/-- Settle-once discipline of a promise: the first settlement wins. -/
def settleFirst {γ : Type} (s : Option γ) (v : γ) : Option γ :=
  match s with
  | none => some v
  | some w => some w

/-- State of the promise built by `fetchWithTimeout`: its settlement (a
response, a fetch error in `Sum.inr`, or the rejection string
"Request Timed Out" in `Sum.inl`) and whether the timer is still armed. -/
structure TimerState (α β : Type) where
  settled : Option (Except (String ⊕ β) α)
  timerActive : Bool

/-- One event against `fetchWithTimeout`'s promise: the timer handler
rejects with "Request Timed Out"; the fetch handlers call `clearTimeout`
and then resolve or reject; `resolve`/`reject` on a settled promise are
no-ops. -/
def fetchWithTimeoutStep {α β : Type} (s : TimerState α β) :
    RaceEvent α β → TimerState α β
  | RaceEvent.timeout =>
    if s.timerActive then
      { settled := settleFirst s.settled (Except.error (Sum.inl "Request Timed Out")),
        timerActive := false }
    else s
  | RaceEvent.fetchOk a =>
    { settled := settleFirst s.settled (Except.ok a), timerActive := false }
  | RaceEvent.fetchErr e =>
    { settled := settleFirst s.settled (Except.error (Sum.inr e)), timerActive := false }

/-- Observable settlement of the promise returned by `fetchWithTimeout`
after the events of the schedule have been delivered. -/
def fetchWithTimeout {α β : Type} (es : List (RaceEvent α β)) :
    Option (Except (String ⊕ β) α) :=
  (es.foldl fetchWithTimeoutStep { settled := none, timerActive := true }).settled

/-- One event against the `Promise.race([fetch(url), timeoutPromise])` of
`fetchWithTimeoutClean`: whichever of the two promises settles first settles
the race; later settlements are ignored. -/
def fetchWithTimeoutCleanStep {α β : Type} (s : Option (Except (String ⊕ β) α)) :
    RaceEvent α β → Option (Except (String ⊕ β) α)
  | RaceEvent.timeout => settleFirst s (Except.error (Sum.inl "Request Timed Out"))
  | RaceEvent.fetchOk a => settleFirst s (Except.ok a)
  | RaceEvent.fetchErr e => settleFirst s (Except.error (Sum.inr e))

/-- Observable settlement of the promise returned by
`fetchWithTimeoutClean` after the events of the schedule have been
delivered. -/
def fetchWithTimeoutClean {α β : Type} (es : List (RaceEvent α β)) :
    Option (Except (String ⊕ β) α) :=
  es.foldl fetchWithTimeoutCleanStep none

/-- Specification-side definition, following the claim's words: the promise
resolves with the response if the fetch settles successfully first, rejects
with the fetch error if the fetch fails first, and rejects with
"Request Timed Out" if the timeout fires first. -/
def raceSpec {α β : Type} : List (RaceEvent α β) → Option (Except (String ⊕ β) α)
  | [] => none
  | RaceEvent.timeout :: _ => some (Except.error (Sum.inl "Request Timed Out"))
  | RaceEvent.fetchOk a :: _ => some (Except.ok a)
  | RaceEvent.fetchErr e :: _ => some (Except.error (Sum.inr e))

theorem settleFirst_isSome {γ : Type} (s : Option γ) (v : γ) :
    ∃ w, settleFirst s v = some w := by
  cases s <;> exact ⟨_, rfl⟩

theorem cleanStep_settled {α β : Type} (w : Except (String ⊕ β) α) (e : RaceEvent α β) :
    fetchWithTimeoutCleanStep (some w) e = some w := by
  cases e <;> rfl

theorem clean_foldl_settled {α β : Type} (es : List (RaceEvent α β))
    (w : Except (String ⊕ β) α) :
    es.foldl fetchWithTimeoutCleanStep (some w) = some w := by
  induction es with
  | nil => rfl
  | cons e es ih => rw [List.foldl_cons, cleanStep_settled]; exact ih

theorem fwt_clean_sync {α β : Type} (es : List (RaceEvent α β))
    (o : Option (Except (String ⊕ β) α)) (act : Bool)
    (hinv : act = false → ∃ w, o = some w) :
    (es.foldl fetchWithTimeoutStep { settled := o, timerActive := act }).settled =
      es.foldl fetchWithTimeoutCleanStep o := by
  induction es generalizing o act with
  | nil => rfl
  | cons e es ih =>
    cases e with
    | fetchOk a =>
      exact ih (settleFirst o (Except.ok a)) false
        (fun _ => settleFirst_isSome o _)
    | fetchErr e =>
      exact ih (settleFirst o (Except.error (Sum.inr e))) false
        (fun _ => settleFirst_isSome o _)
    | timeout =>
      by_cases hact : act = true
      · subst hact
        simp only [List.foldl_cons, fetchWithTimeoutStep, if_pos rfl]
        exact ih _ false (fun _ => settleFirst_isSome o _)
      · have hact' : act = false := by
          cases act
          · rfl
          · exact absurd rfl hact
        obtain ⟨w, hw⟩ := hinv hact'
        subst hw
        subst hact'
        simp only [List.foldl_cons, fetchWithTimeoutStep, if_neg Bool.false_ne_true,
          fetchWithTimeoutCleanStep, settleFirst]
        exact ih (some w) false (fun _ => ⟨w, rfl⟩)

end FetchWithTimeout

namespace DynamicPriorityQueue

/-- C1 (counterexample): the claim "at every instant the running count is at
most the limit in effect at that instant, for every interleaving" is false
as stated: with limit 2 and two tasks running, `setLimit(1)` leaves two
started-but-unfinished tasks while the limit in effect is 1. -/
theorem claim1_counterexample :
    ((run (init 2) [Event.add 0, Event.add 0, Event.setLimit 1]).running.length : Int) = 2 ∧
    (run (init 2) [Event.add 0, Event.add 0, Event.setLimit 1]).concurrency = 1 ∧
    ¬ (((run (init 2) [Event.add 0, Event.add 0, Event.setLimit 1]).running.length : Int) ≤
        (run (init 2) [Event.add 0, Event.add 0, Event.setLimit 1]).concurrency) := by
  decide

/-- C1 (amended): for every interleaving of `add`, `setLimit` and task
completions in which no `setLimit` lowers the limit below the running count
at that instant, the number of started-but-unfinished tasks is at most the
limit in effect at every instant.  (After a `setLimit` decrease below the
running count the invariant is transiently violated — the counterexample —
exactly as the spec's own invariant clause allows: running tasks finish
naturally and are never aborted.) -/
theorem claim1_running_le_limit_unless_lowered (s : State) (es : List Event)
    (h0 : (s.running.length : Int) ≤ s.concurrency)
    (hs : limitSafe s es = true) :
    alwaysWithinLimit s es = true := by
  induction es generalizing s with
  | nil => simpa [alwaysWithinLimit] using h0
  | cons e es ih =>
    simp only [limitSafe, Bool.and_eq_true] at hs
    obtain ⟨hc, hrest⟩ := hs
    simp only [alwaysWithinLimit, Bool.and_eq_true]
    refine ⟨decide_eq_true h0, ih (step s e) (within_step h0 ?_) hrest⟩
    cases e with
    | add p => exact True.intro
    | setLimit n => exact of_decide_eq_true hc
    | finish q o => exact True.intro

/-- C1 witness: a concrete safe interleaving (two submissions, a completion,
then a limit decrease that stays at or above the running count). -/
theorem claim1_witness :
    (((init 2).running.length : Int) ≤ (init 2).concurrency ∧
      limitSafe (init 2)
        [Event.add 0, Event.add 0, Event.finish 0 (Except.ok 5), Event.setLimit 1] = true) ∧
    alwaysWithinLimit (init 2)
      [Event.add 0, Event.add 0, Event.finish 0 (Except.ok 5), Event.setLimit 1] = true :=
  ⟨⟨by decide, by decide⟩,
    claim1_running_le_limit_unless_lowered (init 2)
      [Event.add 0, Event.add 0, Event.finish 0 (Except.ok 5), Event.setLimit 1]
      (by decide) (by decide)⟩

/-- C2 (counterexample): Scenario D fails on the code.  With limit 1, one
task running and two tasks queued, `setLimit(3)` starts only one queued
task: the single `process()` invocation it spawns starts one task and then
suspends at `await task()`, so running becomes 2, not 3, and a task is
still queued although two slots are free. -/
theorem claim2_counterexample :
    (run (init 1) [Event.add 0, Event.add 0, Event.add 0, Event.setLimit 3]).concurrency = 3 ∧
    (run (init 1) [Event.add 0, Event.add 0, Event.add 0, Event.setLimit 3]).running.length = 2 ∧
    (run (init 1) [Event.add 0, Event.add 0, Event.add 0, Event.setLimit 3]).queue ≠ [] := by
  decide

/-- C2 (amended): a single `setLimit(n)` call with `n` greater than the
current running count immediately starts exactly one queued task (the
highest-priority, earliest-submitted one, i.e. the queue head) without any
further `submit` call; the remaining newly free slots are filled only as
later events (further submissions or task completions) each trigger
dispatch again.  In Scenario D running reaches 2 immediately, not 3. -/
theorem claim2_setLimit_starts_exactly_one (s : State) (n : Int) (r : TaskRecord)
    (rest : List TaskRecord) (h : (s.running.length : Int) < n) (hq : s.queue = r :: rest) :
    (setLimit s n).concurrency = n ∧ (setLimit s n).running = s.running ++ [r] ∧
    (setLimit s n).queue = rest ∧ (setLimit s n).settled = s.settled := by
  unfold setLimit
  rw [@processStep_of_start { s with concurrency := n } r rest h hq]
  exact ⟨rfl, rfl, rfl, rfl⟩

/-- C2 witness: the Scenario D state (limit 1, one task running, two
queued), to which `setLimit 3` is applied. -/
theorem claim2_witness :
    (((run (init 1) [Event.add 0, Event.add 0, Event.add 0]).running.length : Int) < 3 ∧
      (run (init 1) [Event.add 0, Event.add 0, Event.add 0]).queue =
        { priority := 0, seq := 1 } :: [{ priority := 0, seq := 2 }]) ∧
    (setLimit (run (init 1) [Event.add 0, Event.add 0, Event.add 0]) 3).running =
      (run (init 1) [Event.add 0, Event.add 0, Event.add 0]).running ++
        [{ priority := 0, seq := 1 }] :=
  ⟨⟨by decide, by decide⟩,
    (claim2_setLimit_starts_exactly_one (run (init 1) [Event.add 0, Event.add 0, Event.add 0])
      3 { priority := 0, seq := 1 } [{ priority := 0, seq := 2 }]
      (by decide) (by decide)).2.1⟩

/-- C3: in every reachable state, the queue head — the record `process()`
starts next when a slot is free — dominates every other queued record:
strictly greater priority, or equal priority and strictly earlier arrival
(FIFO among ties); `process()` indeed starts exactly the head; and no
record already running is removed or displaced by a later `add` or
`setLimit` (no preemption). -/
theorem claim3_priority_dispatch (c : Int) (es : List Event) (r : TaskRecord)
    (rest : List TaskRecord) (hq : (run (init c) es).queue = r :: rest) :
    (∀ r' ∈ rest, r'.priority < r.priority ∨ (r'.priority = r.priority ∧ r.seq < r'.seq)) ∧
    (((run (init c) es).running.length : Int) < (run (init c) es).concurrency →
      processStep (run (init c) es) =
        { run (init c) es with queue := rest, running := (run (init c) es).running ++ [r] }) ∧
    (∀ p, ∀ x ∈ (run (init c) es).running, x ∈ (add (run (init c) es) p).running) ∧
    (∀ n, ∀ x ∈ (run (init c) es).running, x ∈ (setLimit (run (init c) es) n).running) := by
  have hwf := wf_run (wf_init c) es
  refine ⟨?_, ?_, ?_, ?_⟩
  · have hp := hwf.2
    unfold sortInv at hp
    rw [hq] at hp
    intro r' hr'
    rcases (List.pairwise_cons.mp hp).1 r' hr' with h1 | ⟨h1, h2⟩
    · exact Or.inl h1
    · exact Or.inr ⟨h1.symm, h2⟩
  · intro hlt
    exact processStep_of_start hlt hq
  · intro p x hx
    exact processStep_mem_running hx
  · intro n x hx
    exact processStep_mem_running hx

/-- C3 witness: with the limit at 0 nothing starts; after submitting
priority 1 and then two tasks of priority 5, the queue head is the first
priority-5 task (higher priority beats earlier arrival; FIFO among the
priority-5 tie). -/
theorem claim3_witness :
    (run (init 0) [Event.add 1, Event.add 5, Event.add 5]).queue =
      { priority := 5, seq := 1 } ::
        [{ priority := 5, seq := 2 }, { priority := 1, seq := 0 }] ∧
    (∀ r' ∈ [({ priority := 5, seq := 2 } : TaskRecord), { priority := 1, seq := 0 }],
      r'.priority < (5 : Int) ∨ (r'.priority = 5 ∧ 1 < r'.seq)) :=
  ⟨by decide,
    (claim3_priority_dispatch 0 [Event.add 1, Event.add 5, Event.add 5]
      { priority := 5, seq := 1 }
      [{ priority := 5, seq := 2 }, { priority := 1, seq := 0 }] (by decide)).1⟩

/-- C4: along every interleaving from a fresh scheduler, the settlement log
never contains two settlements of the same handle (each handle settles at
most once), and every submitted task — every sequence number below the
fresh counter — is present in exactly one place: pending, in flight, or
settled with its single outcome.  (That a settlement carries the task's own
success value or failure is definitional in `finish`, which logs exactly
the completing task's outcome; "exactly one settlement" then holds for
every task whose completion event occurs.) -/
theorem claim4_settles_at_most_once (c : Int) (es : List Event) :
    ((run (init c) es).settled.map Prod.fst).Nodup ∧
    (∀ q, q ∈ allSeqs (run (init c) es) ↔ q < (run (init c) es).nextSeq) := by
  obtain ⟨⟨h1, h2, h3⟩, _⟩ := wf_run (wf_init c) es
  exact ⟨List.Nodup.of_append_right h1, fun q => ⟨h2 q, h3 q⟩⟩

/-- C5: Scenario C.  With limit 1, submit a task that fails with error "X",
then submit a second task.  The failing task's handle is rejected with
exactly "X" (the outcome is relayed verbatim into the settlement log), and
the second queued task starts right after the failure (the `finally` block
decrements `running` and dispatches again even when the task threw). -/
theorem claim5_failure_relayed :
    (run (init 1) [Event.add 0, Event.add 0, Event.finish 0 (Except.error "X")]).settled =
      [(0, Except.error "X")] ∧
    (run (init 1) [Event.add 0, Event.add 0, Event.finish 0 (Except.error "X")]).running =
      [{ priority := 0, seq := 1 }] ∧
    (run (init 1) [Event.add 0, Event.add 0, Event.finish 0 (Except.error "X")]).queue = [] := by
  decide

/-- C6: `setLimit(n)` with `n` below the current running count aborts
nothing: the running list, queue and settlement log are untouched (every
started task stays in flight until its own completion settles it); and
while the running count exceeds the limit, neither a further `add` nor a
task completion starts any queued task — the running set only ever loses
members until it has fallen to the limit. -/
theorem claim6_decrease_aborts_nothing (s : State) (n : Int)
    (h : n < (s.running.length : Int)) :
    (setLimit s n).concurrency = n ∧
    (setLimit s n).running = s.running ∧
    (setLimit s n).queue = s.queue ∧
    (setLimit s n).settled = s.settled ∧
    (∀ p, (add (setLimit s n) p).running = s.running) ∧
    (∀ q o, ∀ x ∈ (finish (setLimit s n) q o).running, x ∈ s.running) := by
  have hng : ¬ ((s.running.length : Int) < n) := by omega
  have hsl : setLimit s n = { s with concurrency := n } := by
    unfold setLimit
    exact @processStep_of_full { s with concurrency := n } hng
  refine ⟨by rw [hsl], by rw [hsl], by rw [hsl], by rw [hsl], ?_, ?_⟩
  · intro p
    rw [hsl]
    exact processStep_running_of_full hng
  · intro q o x hx
    rw [hsl] at hx
    exact @finish_running_no_start { s with concurrency := n } q o
      (Or.inl (show n ≤ (s.running.length : Int) - 1 by omega)) x hx

/-- A concrete state with limit 1, one running task and one queued task. -/
def sampleRunningState : State :=
  { concurrency := 1, running := [{ priority := 0, seq := 0 }],
    queue := [{ priority := 0, seq := 1 }], settled := [], nextSeq := 2 }

/-- C6 witness: limit lowered to 0 while one task runs and one is queued. -/
theorem claim6_witness :
    (0 : Int) < (sampleRunningState.running.length : Int) ∧
    (setLimit sampleRunningState 0).running = sampleRunningState.running :=
  ⟨by decide, (claim6_decrease_aborts_nothing sampleRunningState 0 (by decide)).2.1⟩

/-- C7: `add` and `setLimit` return after recording the submission (or the
new limit) and starting at most one task; they never wait for any task to
finish.  In the embedding: neither operation settles any handle (the
settlement log is unchanged, so in particular no submitted task runs to
completion inside the call — completion only ever happens at a later
`finish` event), and neither removes an in-flight task. -/
theorem claim7_public_ops_nonblocking (s : State) (p n : Int) :
    (add s p).settled = s.settled ∧
    (setLimit s n).settled = s.settled ∧
    (∀ x ∈ s.running, x ∈ (add s p).running) ∧
    (∀ x ∈ s.running, x ∈ (setLimit s n).running) :=
  ⟨processStep_settled _, processStep_settled _,
    fun _ hx => processStep_mem_running hx,
    fun _ hx => processStep_mem_running hx⟩

/-- C8: every interleaving preserves the dispatcher-state invariants: the
well-formedness predicate (globally distinct sequence numbers — so a
record, once popped, is never reinserted and the queue holds only
not-yet-started records — together with the queue's dispatch ordering)
holds in every reachable state; the running counter, a list length, is
never negative; and the dequeue is guarded: with an empty queue `process()`
changes nothing, so a record is only ever shifted from a non-empty
queue. -/
theorem claim8_invariants_preserved (c : Int) (es : List Event) :
    WF (run (init c) es) ∧
    0 ≤ ((run (init c) es).running.length : Int) ∧
    ((run (init c) es).queue = [] → processStep (run (init c) es) = run (init c) es) := by
  refine ⟨wf_run (wf_init c) es, by omega, ?_⟩
  intro hq
  rcases processStep_cases (run (init c) es) with he | ⟨r, rest, hq', _, _⟩
  · exact he
  · rw [hq] at hq'
    cases hq'

/-- C9: a negative concurrency value raises no error and is not clamped:
the constructor and `setLimit` store it exactly as given (all operations
are total).  While the stored limit is ≤ 0 the dispatch guard
`running < concurrency` can never hold, so no queued task ever starts:
`setLimit` with a non-positive value changes only the limit field, `add`
only enqueues (its record and handle stay pending, nothing is settled),
and a completion starts nothing new. -/
theorem claim9_negative_limit_stored (s : State) (c n : Int) (hn : n ≤ 0)
    (hc : s.concurrency ≤ 0) :
    (init c).concurrency = c ∧ (init c).running = [] ∧ (init c).queue = [] ∧
    (setLimit s n).concurrency = n ∧ (setLimit s n).running = s.running ∧
    (setLimit s n).queue = s.queue ∧ (setLimit s n).settled = s.settled ∧
    (∀ p, (add s p).running = s.running ∧ (add s p).settled = s.settled) ∧
    (∀ q o, ∀ x ∈ (finish s q o).running, x ∈ s.running) := by
  have hng : ¬ ((s.running.length : Int) < n) := by omega
  have hsl : setLimit s n = { s with concurrency := n } := by
    unfold setLimit
    exact @processStep_of_full { s with concurrency := n } hng
  refine ⟨rfl, rfl, rfl, by rw [hsl], by rw [hsl], by rw [hsl], by rw [hsl], ?_, ?_⟩
  · intro p
    have hng' : ¬ ((s.running.length : Int) < s.concurrency) := by omega
    exact ⟨processStep_running_of_full hng', processStep_settled _⟩
  · intro q o x hx
    exact finish_running_no_start (Or.inr hc) x hx

/-- A concrete state with a negative stored limit and one queued task. -/
def sampleNegativeState : State :=
  { concurrency := -2, running := [], queue := [{ priority := 0, seq := 0 }],
    settled := [], nextSeq := 1 }

/-- C9 witness: a scheduler holding limit -2, with one queued task, to which
`setLimit (-1)` is applied. -/
theorem claim9_witness :
    ((-1 : Int) ≤ 0 ∧ sampleNegativeState.concurrency ≤ 0) ∧
    (setLimit sampleNegativeState (-1)).queue = sampleNegativeState.queue :=
  ⟨⟨by decide, by decide⟩,
    (claim9_negative_limit_stored sampleNegativeState (-3) (-1)
      (by decide) (by decide)).2.2.2.2.2.1⟩

end DynamicPriorityQueue

namespace FetchWithTimeout

/-- C10: `fetchWithTimeout` and `fetchWithTimeoutClean` are observably
equivalent as promise-returning functions: over every schedule of
asynchronous events (for any url and ms, i.e. any fetch outcome and any
relative order of fetch settlement and timer firing), the two returned
promises settle identically — and both match the first-event-wins
specification `raceSpec`: the fetch response if the fetch settles
successfully first, the fetch error if it fails first, and rejection with
"Request Timed Out" if the timeout fires first. -/
theorem claim10_fetch_equivalent {α β : Type} (es : List (RaceEvent α β)) :
    fetchWithTimeout es = fetchWithTimeoutClean es ∧
    fetchWithTimeoutClean es = raceSpec es := by
  constructor
  · exact fwt_clean_sync es none true (fun h => Bool.noConfusion h)
  · cases es with
    | nil => rfl
    | cons e es =>
      cases e with
      | fetchOk a => exact clean_foldl_settled es (Except.ok a)
      | fetchErr e => exact clean_foldl_settled es (Except.error (Sum.inr e))
      | timeout => exact clean_foldl_settled es (Except.error (Sum.inl "Request Timed Out"))

end FetchWithTimeout
